import Mathlib

/-!
Shallow embedding of `mmdet/models/backbones/scarlet.py` (Scarlet NAS
backbones).  Python tensors are modelled at two levels: a shape level
(`TShape`, with convolution output-shape arithmetic and `Option` for shape
errors) and an abstract denotational level (an arbitrary type `T` together
with denotation functions for the learned submodules).  Python `str` is
modelled as `List Char`; Python `round` (banker's rounding) as
`pythonRound`; elementwise activations are modelled over `ℚ`.
-/

namespace Scarlet

/-- Shape of a 4-d tensor (batch, channels, height, width). -/
structure TShape where
  n : ℕ
  c : ℕ
  h : ℕ
  w : ℕ
deriving DecidableEq, Repr

/-- Construction-time configuration of a `nn.Conv2d` layer. -/
structure Conv2dCfg where
  in_channels : ℕ
  out_channels : ℕ
  kernel_h : ℕ
  kernel_w : ℕ
  stride : ℕ
  padding : ℕ
  groups : ℕ
  bias : Bool
deriving DecidableEq, Repr

/-- The `nn.Conv2d(inp, oup, k, s, p, groups, bias)` call with a square
kernel, as used throughout the source file. -/
def Conv2d (inp oup k s p g : ℕ) (b : Bool) : Conv2dCfg :=
  ⟨inp, oup, k, k, s, p, g, b⟩

/-- Output shape of a 2-d convolution: requires the channel count to match,
the torch group-divisibility construction checks, a positive stride and a
kernel that fits inside the padded input; output spatial size is
`(n + 2p - k) / s + 1` (floor division). -/
def Conv2dCfg.outShape (m : Conv2dCfg) (t : TShape) : Option TShape :=
  if t.c = m.in_channels ∧ m.in_channels % m.groups = 0 ∧
      m.out_channels % m.groups = 0 ∧ 0 < m.groups ∧ 0 < m.stride ∧
      m.kernel_h ≤ t.h + 2 * m.padding ∧ m.kernel_w ≤ t.w + 2 * m.padding then
    some ⟨t.n, m.out_channels,
      (t.h + 2 * m.padding - m.kernel_h) / m.stride + 1,
      (t.w + 2 * m.padding - m.kernel_w) / m.stride + 1⟩
  else none

/-- Leaf `nn.Module`s appearing in the file (squeeze-excite and
inverted-residual blocks are modelled as dedicated structures). -/
inductive NNModule where
  | conv2d (m : Conv2dCfg)
  | batchNorm2d (num_features : ℕ)
  | mish
  | hswishM (inplace : Bool)
  | hsigmoidM (inplace : Bool)
  | reluM (inplace : Bool)
  | adaptiveAvgPool2d (output_size : ℕ)
  | identityM
deriving DecidableEq, Repr

/-- Shape semantics of a leaf module: convolutions use `Conv2dCfg.outShape`,
batch normalization requires a matching channel count, adaptive average
pooling forces the configured spatial size, activations preserve shape. -/
def NNModule.outShape : NNModule → TShape → Option TShape
  | .conv2d m, t => m.outShape t
  | .batchNorm2d f, t => if t.c = f then some t else none
  | .adaptiveAvgPool2d o, t => some ⟨t.n, t.c, o, o⟩
  | .mish, t => some t
  | .hswishM _, t => some t
  | .hsigmoidM _, t => some t
  | .reluM _, t => some t
  | .identityM, t => some t

/-- Shape semantics of an `nn.Sequential` list of leaf modules. -/
def seqShape (ms : List NNModule) (t : TShape) : Option TShape :=
  ms.foldlM (fun t m => m.outShape t) t

/-- The `stem` builder: 3x3 convolution, batch norm, Mish. -/
def stem (inp oup s : ℕ) : List NNModule :=
  [.conv2d (Conv2d inp oup 3 s 1 1 false), .batchNorm2d oup, .mish]

/-- The `separable_conv` builder: depthwise 3x3 + bn + Mish, then pointwise
1x1 + bn (no trailing activation). -/
def separable_conv (inp oup : ℕ) : List NNModule :=
  [.conv2d (Conv2d inp inp 3 1 1 inp false), .batchNorm2d inp, .mish,
   .conv2d (Conv2d inp oup 1 1 0 1 false), .batchNorm2d oup]

/-- The `conv_before_pooling` builder: pointwise 1x1 + bn + Mish. -/
def conv_before_pooling (inp oup : ℕ) : List NNModule :=
  [.conv2d (Conv2d inp oup 1 1 0 1 false), .batchNorm2d oup, .mish]

/-- The `Identity` module's forward: returns its input unchanged. -/
def Identity.forward {T : Type} (inputs : T) : T := inputs

/-- Elementwise model of `F.relu6` (the `inplace` flag is a memory
optimization with no effect on the computed value). -/
def relu6 (x : ℚ) (inplace : Bool) : ℚ := min (max x 0) 6

/-- The `HSwish` activation module. -/
structure HSwish where
  inplace : Bool
deriving DecidableEq, Repr

/-- Elementwise forward of `HSwish`: `x * relu6(x + 3) / 6`. -/
def HSwish.forward (m : HSwish) (x : ℚ) : ℚ := x * relu6 (x + 3) m.inplace / 6

/-- The `HSigmoid` activation module. -/
structure HSigmoid where
  inplace : Bool
deriving DecidableEq, Repr

/-- Elementwise forward of `HSigmoid`: `relu6(x + 3) / 6`. -/
def HSigmoid.forward (m : HSigmoid) (x : ℚ) : ℚ := relu6 (x + 3) m.inplace / 6

/-- Elementwise clamp on rationals (the spec's `clamp(x, lo, hi)`). -/
def clamp (x lo hi : ℚ) : ℚ := min (max x lo) hi

/-- The `SqueezeExcite` module: global pooling, squeeze 1x1 convolution
(with bias), ReLU, excite 1x1 convolution (with bias), HSigmoid. -/
structure SqueezeExcite where
  global_pooling : NNModule
  squeeze_conv : Conv2dCfg
  squeeze_act : NNModule
  excite_conv : Conv2dCfg
  excite_act : NNModule
deriving DecidableEq, Repr

/-- The `SqueezeExcite.__init__` constructor: the squeeze projection has
`in_channel / reduction` output channels (integer floor division, no
divisibility check), the excite projection maps back to `in_channel`. -/
def SqueezeExcite.init (in_channel reduction : ℕ) : SqueezeExcite :=
  { global_pooling := .adaptiveAvgPool2d 1
    squeeze_conv := ⟨in_channel, in_channel / reduction, 1, 1, 1, 0, 1, true⟩
    squeeze_act := .reluM true
    excite_conv := ⟨in_channel / reduction, in_channel, 1, 1, 1, 0, 1, true⟩
    excite_act := .hsigmoidM true }

/-- Shape semantics of the broadcast multiply `inputs * gate` at the end of
`SqueezeExcite.forward`: equal shapes, or a `(n, c, 1, 1)` gate broadcast
over `(n, c, h, w)`. -/
def mulBroadcastShape (a b : TShape) : Option TShape :=
  if a = b then some a
  else if b = ⟨a.n, a.c, 1, 1⟩ then some a
  else none

/-- Shape semantics of `SqueezeExcite.forward`, mirroring the source chain:
pool, squeeze conv, squeeze act, excite conv, excite act, multiply. -/
def SqueezeExcite.outShape (se : SqueezeExcite) (t : TShape) : Option TShape :=
  (se.global_pooling.outShape t).bind fun p =>
  (se.squeeze_conv.outShape p).bind fun p =>
  (se.squeeze_act.outShape p).bind fun p =>
  (se.excite_conv.outShape p).bind fun p =>
  (se.excite_act.outShape p).bind fun p =>
  mulBroadcastShape t p

/-- The `InvertedResidual` module, with all fields computed by its
constructor. -/
structure InvertedResidual where
  inp : ℕ
  oup : ℕ
  kernel_size : ℕ
  stride : ℕ
  expansion : ℕ
  is_use_se : Bool
  use_res_connect : Bool
  hidden_dim : ℕ
  conv1 : Conv2dCfg
  bn1 : ℕ
  conv2 : Conv2dCfg
  bn2 : ℕ
  mid_se : Option SqueezeExcite
  conv3 : Conv2dCfg
  bn3 : ℕ
deriving DecidableEq, Repr

/-- The `InvertedResidual.__init__` constructor (source parameter name for
`expansion` is `expand_` `ratio`).  The `assert stride in [1, 2]` is
modelled by returning `none` for any other stride; `hidden_dim` is
`round(inp * expand_` `ratio)` — every configuration in this file passes an
integer ratio, for which Python's `round` is the identity, so the ratio is
modelled as `ℕ` and `hidden_dim` as `inp * expansion`; padding is
`kernel_size // 2`; the residual flag is `stride == 1 and inp == oup`;
`mid_se` exists exactly when `is_use_se`. -/
def InvertedResidual.init (inp oup kernel_size stride expansion : ℕ)
    (is_use_se : Bool) : Option InvertedResidual :=
  if stride = 1 ∨ stride = 2 then
    some { inp := inp, oup := oup, kernel_size := kernel_size, stride := stride
           expansion := expansion, is_use_se := is_use_se
           use_res_connect := stride == 1 && inp == oup
           hidden_dim := inp * expansion
           conv1 := ⟨inp, inp * expansion, 1, 1, 1, 0, 1, false⟩
           bn1 := inp * expansion
           conv2 := ⟨inp * expansion, inp * expansion,
                     kernel_size, kernel_size, stride, kernel_size / 2,
                     inp * expansion, false⟩
           bn2 := inp * expansion
           mid_se := if is_use_se then
               some (SqueezeExcite.init (inp * expansion) 4)
             else none
           conv3 := ⟨inp * expansion, oup, 1, 1, 1, 0, 1, false⟩
           bn3 := oup }
  else none

/-- Shape semantics of the elementwise residual addition `inputs + x`
(modelled for the equal-shape case, which is the only one the residual
branch produces). -/
def addShape (a b : TShape) : Option TShape :=
  if a = b then some a else none

/-- Shape semantics of `InvertedResidual.forward`, mirroring the source
chain: conv1, bn1, act1, conv2, bn2, act2, optional squeeze-excite, conv3,
bn3, then the residual addition when `use_res_connect`. -/
def InvertedResidual.outShape (b : InvertedResidual) (x0 : TShape) : Option TShape :=
  (b.conv1.outShape x0).bind fun x =>
  (if x.c = b.bn1 then some x else none).bind fun x =>
  (b.conv2.outShape x).bind fun x =>
  (if x.c = b.bn2 then some x else none).bind fun x =>
  (if b.is_use_se then b.mid_se.bind fun se => se.outShape x else some x).bind fun x =>
  (b.conv3.outShape x).bind fun x =>
  (if x.c = b.bn3 then some x else none).bind fun x =>
  if b.use_res_connect then addShape x0 x else some x

/-- One entry of an `mb_config` list: either the `"identity"` sentinel
string or a five-field spec `(t, c, k, s, e)` = (expansion, out_channel,
kernel_size, stride, squeeze-excite flag). -/
inductive MbCfg where
  | identity
  | mb (t c k s : ℕ) (e : Bool)
deriving DecidableEq, Repr

/-- A materialized block: an `Identity` passthrough or an
`InvertedResidual`. -/
inductive BlockMod where
  | identity
  | inv (b : InvertedResidual)
deriving DecidableEq, Repr

/-- Python's `str.startswith`, on strings modelled as `List Char`. -/
def pyStartsWith : List Char → List Char → Bool
  | [], _ => true
  | _ :: _, [] => false
  | p :: ps, c :: cs => p == c && pyStartsWith ps cs

/-- The characters of the string literal `"strided"`. -/
def stridedChars : List Char := ['s', 't', 'r', 'i', 'd', 'e', 'd']

/-- The dynamic attribute name `f"identity_{idx}"`. -/
def identityNameChars (idx : ℕ) : List Char :=
  ['i', 'd', 'e', 'n', 't', 'i', 't', 'y', '_'] ++ (Nat.repr idx).data

/-- The dynamic attribute name `f"block_{idx}"`. -/
def blockNameChars (idx : ℕ) : List Char :=
  ['b', 'l', 'o', 'c', 'k', '_'] ++ (Nat.repr idx).data

/-- The dynamic attribute name `f"strided_block_{idx}"`. -/
def stridedBlockNameChars (idx : ℕ) : List Char :=
  ['s', 't', 'r', 'i', 'd', 'e', 'd', '_', 'b', 'l', 'o', 'c', 'k', '_'] ++
    (Nat.repr idx).data

/-- The block-construction loop of `ScarletBase.__init__`: walks the config
list with the running `input_channel`, materializes `"identity"` entries as
passthrough blocks (leaving the running channel unchanged) and five-field
entries as `InvertedResidual` blocks named `block_{idx}` or
`strided_block_{idx}` by stride (updating the running channel to `c`).
Returns the named block list and the final running channel; `none` if some
`InvertedResidual` assertion fails. -/
def buildBlocks : ℕ → List MbCfg → ℕ → Option (List (List Char × BlockMod) × ℕ)
  | _, [], input_channel => some ([], input_channel)
  | idx, .identity :: rest, input_channel =>
      match buildBlocks (idx + 1) rest input_channel with
      | none => none
      | some (rs, fc) => some ((identityNameChars idx, .identity) :: rs, fc)
  | idx, .mb t c k s e :: rest, input_channel =>
      match InvertedResidual.init input_channel c k s t e with
      | none => none
      | some b =>
          match buildBlocks (idx + 1) rest c with
          | none => none
          | some (rs, fc) =>
              some (((if s = 1 then blockNameChars idx else stridedBlockNameChars idx),
                     .inv b) :: rs, fc)

/-- The `ScarletBase` backbone after construction. -/
structure ScarletBase where
  last_channel : ℕ
  stem_mod : List NNModule
  separable_conv_mod : List NNModule
  records : List (List Char × BlockMod)
  conv_before_pooling_mod : List NNModule
deriving DecidableEq, Repr

/-- The `ScarletBase.__init__` constructor: stem 3→32 (stride 2),
separable conv 32→16, the block chain from `mb_config`, and
`conv_before_pooling` from the final running channel to `last_channel`. -/
def ScarletBase.init (mb_config : List MbCfg) (input_channel last_channel : ℕ) :
    Option ScarletBase :=
  match buildBlocks 0 mb_config input_channel with
  | none => none
  | some (rs, fc) =>
      some { last_channel := last_channel
             stem_mod := stem 3 32 2
             separable_conv_mod := separable_conv 32 16
             records := rs
             conv_before_pooling_mod := conv_before_pooling fc last_channel }

/-- A denotation of the learned submodules over an abstract tensor type:
one function per `nn.Sequential` chain and one per `InvertedResidual`
block. -/
structure Den (T : Type) where
  seq : List NNModule → T → T
  inv : InvertedResidual → T → T

/-- Running one materialized block under a denotation: identity blocks use
`Identity.forward`, inverted-residual blocks use the denotation. -/
def BlockMod.run {T : Type} (d : Den T) : BlockMod → T → T
  | .identity => Identity.forward
  | .inv b => d.inv b

/-- The block loop of `ScarletBase.forward`: runs the blocks in order,
appending the current tensor to `skips` immediately before any block whose
attribute name starts with `"strided"`; returns the skip list and the final
tensor. -/
def forwardBlocks {T : Type} (d : Den T) :
    List (List Char × BlockMod) → T → List T × T
  | [], x => ([], x)
  | (name, m) :: rest, x =>
      let here := if pyStartsWith stridedChars name then [x] else []
      let out := forwardBlocks d rest (m.run d x)
      (here ++ out.1, out.2)

/-- The `ScarletBase.forward` pass: stem, separable conv, the block loop,
then `conv_before_pooling`, whose output is appended as the final skip
entry.  (The `filter_by_out_idices` decorator that selects pyramid entries
is an external collaborator, out of scope.) -/
def ScarletBase.forward {T : Type} (s : ScarletBase) (d : Den T) (x : T) : List T :=
  let x := d.seq s.stem_mod x
  let x := d.seq s.separable_conv_mod x
  let out := forwardBlocks d s.records x
  out.1 ++ [d.seq s.conv_before_pooling_mod out.2]

/-- Whether a materialized block is stride-inducing (spec wording: its
configured stride is 2); identity blocks are not. -/
def isStridedBlock : BlockMod → Bool
  | .identity => false
  | .inv b => b.stride == 2

/-- Modelled from the spec: the block loop of the forward contract,
dispatching on the block's structural stride being 2 instead of on its
attribute-name string.  Used as the reference side of the pyramid claim. -/
def specForwardBlocks {T : Type} (d : Den T) :
    List (List Char × BlockMod) → T → List T × T
  | [], x => ([], x)
  | (_, m) :: rest, x =>
      let here := if isStridedBlock m then [x] else []
      let out := specForwardBlocks d rest (m.run d x)
      (here ++ out.1, out.2)

/-- Modelled from the spec: the forward contract with the stride-dispatched
block loop. -/
def ScarletBase.specForward {T : Type} (s : ScarletBase) (d : Den T) (x : T) :
    List T :=
  let x := d.seq s.stem_mod x
  let x := d.seq s.separable_conv_mod x
  let out := specForwardBlocks d s.records x
  out.1 ++ [d.seq s.conv_before_pooling_mod out.2]

/-- Number of stride-2 entries in a block configuration list. -/
def countStride2 (cfg : List MbCfg) : ℕ :=
  cfg.countP fun e => match e with
    | .mb _ _ _ s _ => s == 2
    | .identity => false

/-- The shape denotation: tensors are `Option TShape` (so a shape error
propagates), sequential chains run `seqShape`, inverted-residual blocks run
`InvertedResidual.outShape`. -/
def shapeDen : Den (Option TShape) :=
  { seq := fun ms t => t.bind (seqShape ms)
    inv := fun b t => t.bind b.outShape }

/-- Spec-side running-channel bookkeeping: an identity entry leaves the
running channel unchanged, a five-field entry replaces it by its
out-channel. -/
def chanAfter : List MbCfg → ℕ → ℕ
  | [], input_channel => input_channel
  | .identity :: rest, input_channel => chanAfter rest input_channel
  | .mb _ c _ _ _ :: rest, _ => chanAfter rest c

/-- The `ScarletA` preset configuration table. -/
def ScarletA_config : List MbCfg :=
  [.mb 3 32 7 2 false,
   .mb 6 32 5 1 false,
   .mb 3 40 5 2 false,
   .mb 3 40 7 1 true,
   .mb 6 40 3 1 true,
   .mb 3 40 5 1 true,
   .mb 6 80 3 2 true,
   .mb 3 80 3 1 false,
   .mb 3 80 7 1 true,
   .mb 3 80 7 1 false,
   .mb 3 96 5 1 false,
   .mb 3 96 7 1 true,
   .mb 3 96 3 1 false,
   .mb 3 96 7 1 true,
   .mb 6 192 3 2 true,
   .mb 6 192 5 1 true,
   .mb 3 192 3 1 true,
   .mb 6 192 3 1 true,
   .mb 6 320 7 1 true]

/-- The `ScarletB` preset configuration table. -/
def ScarletB_config : List MbCfg :=
  [.mb 3 32 3 2 true,
   .mb 3 32 5 1 true,
   .mb 3 40 3 2 true,
   .mb 6 40 7 1 true,
   .mb 3 40 3 1 false,
   .mb 3 40 5 1 false,
   .mb 6 80 7 2 true,
   .mb 3 80 3 1 true,
   .identity,
   .mb 3 80 5 1 false,
   .mb 3 96 3 1 true,
   .mb 3 96 3 1 true,
   .mb 6 96 7 1 true,
   .mb 3 96 3 1 true,
   .mb 6 192 5 2 true,
   .mb 6 192 5 1 true,
   .identity,
   .mb 6 192 7 1 true,
   .mb 6 320 5 1 true]

/-- The `ScarletC` preset configuration table. -/
def ScarletC_config : List MbCfg :=
  [.mb 3 32 5 2 true,
   .mb 3 32 3 1 true,
   .mb 3 40 5 2 true,
   .identity,
   .identity,
   .mb 3 40 3 1 false,
   .mb 6 80 7 2 true,
   .mb 3 80 3 1 true,
   .mb 3 80 3 1 true,
   .mb 3 80 5 1 false,
   .mb 3 96 7 1 true,
   .mb 3 96 7 1 false,
   .mb 3 96 3 1 true,
   .mb 3 96 7 1 true,
   .mb 3 192 3 2 true,
   .identity,
   .mb 6 192 3 1 true,
   .mb 6 192 7 1 true,
   .mb 6 320 5 1 true]

/-- The `ScarletA` backbone: `ScarletBase` with the A table, input channel
16, last channel 1280. -/
def ScarletA : Option ScarletBase := ScarletBase.init ScarletA_config 16 1280

/-- The `ScarletB` backbone. -/
def ScarletB : Option ScarletBase := ScarletBase.init ScarletB_config 16 1280

/-- The `ScarletC` backbone. -/
def ScarletC : Option ScarletBase := ScarletBase.init ScarletC_config 16 1280

/-- A denotation of the learned submodules of one `InvertedResidual` block
over an abstract tensor type, one function per submodule. -/
structure IRDen (T : Type) where
  conv1 : T → T
  bn1 : T → T
  act1 : T → T
  conv2 : T → T
  bn2 : T → T
  act2 : T → T
  mid_se : T → T
  conv3 : T → T
  bn3 : T → T

/-- Value-level `InvertedResidual.forward`, mirroring the source statement
by statement: the expand/normalize/activate, depthwise/normalize/activate,
optional squeeze-excite, project/normalize chain, then `inputs + x` when
`use_res_connect` and `x` alone otherwise. -/
def InvertedResidual.forward {T : Type} [Add T] (b : InvertedResidual)
    (d : IRDen T) (x : T) : T :=
  let inputs := x
  let x := d.conv1 x
  let x := d.bn1 x
  let x := d.act1 x
  let x := d.conv2 x
  let x := d.bn2 x
  let x := d.act2 x
  let x := if b.is_use_se then d.mid_se x else x
  let x := d.conv3 x
  let x := d.bn3 x
  if b.use_res_connect then inputs + x else x

/-- The expand/depthwise/(squeeze-excite)/project branch of an
`InvertedResidual` block, without any shortcut (source lines 116-125). -/
def InvertedResidual.branch {T : Type} (b : InvertedResidual)
    (d : IRDen T) (x : T) : T :=
  let x := d.conv1 x
  let x := d.bn1 x
  let x := d.act1 x
  let x := d.conv2 x
  let x := d.bn2 x
  let x := d.act2 x
  let x := if b.is_use_se then d.mid_se x else x
  let x := d.conv3 x
  d.bn3 x

/-- The identity denotation of an `InvertedResidual` block's submodules
over `ℚ` (used to instantiate theorems at concrete inputs). -/
def idIRDen : IRDen ℚ := ⟨id, id, id, id, id, id, id, id, id⟩

/-- The trivial denotation over `Unit` (used to instantiate theorems at
concrete inputs). -/
def unitDen : Den Unit := ⟨fun _ _ => (), fun _ _ => ()⟩

/-- Child modules of a `SqueezeExcite`, in attribute order, as visited by
`self.modules()`. -/
def SqueezeExcite.modules (se : SqueezeExcite) : List NNModule :=
  [se.global_pooling, .conv2d se.squeeze_conv, se.squeeze_act,
   .conv2d se.excite_conv, se.excite_act]

/-- Child modules of an `InvertedResidual`, in attribute order (`mid_se`
exists only when `is_use_se`). -/
def InvertedResidual.modules (b : InvertedResidual) : List NNModule :=
  [.conv2d b.conv1, .batchNorm2d b.bn1, .hswishM true,
   .conv2d b.conv2, .batchNorm2d b.bn2, .hswishM true] ++
  (match b.mid_se with
   | some se => se.modules
   | none => []) ++
  [.conv2d b.conv3, .batchNorm2d b.bn3]

/-- Child modules of a materialized block. -/
def BlockMod.modules : BlockMod → List NNModule
  | .identity => [.identityM]
  | .inv b => b.modules

/-- All leaf modules of a constructed `ScarletBase`, as visited by the
`self.modules()` traversal in `_initialize_weights`. -/
def ScarletBase.modules (s : ScarletBase) : List NNModule :=
  s.stem_mod ++ s.separable_conv_mod ++
  (s.records.map fun r => r.2.modules).flatten ++
  s.conv_before_pooling_mod

/-- A parameter initialization: `gaussian mean var` stands for
`normal_(mean, std)` with `std * std = var` (the code passes
`std = math.sqrt(2 / n)`, recorded here by its exact square `2 / n`);
`const v` stands for `fill_(v)` / `zero_()`. -/
inductive ParamInit where
  | gaussian (mean : ℚ) (var : ℚ)
  | const (v : ℚ)
deriving DecidableEq, Repr

/-- A module together with the initialization applied to its weight and
bias parameters (`none` when the module has no such parameter). -/
structure InitializedModule where
  module : NNModule
  weight_init : Option ParamInit
  bias_init : Option ParamInit
deriving DecidableEq, Repr

/-- The body of `_initialize_weights` for one module: convolutions get a
zero-mean Gaussian weight with variance `2 / (kernel_h * kernel_w *
out_channels)` and, if a bias exists, a zeroed bias; batch-norm layers get
scale 1 and shift 0; other modules have no parameters to initialize. -/
def initializeModule (m : NNModule) : InitializedModule :=
  match m with
  | .conv2d cc =>
      ⟨m, some (.gaussian 0 (2 / ((cc.kernel_h : ℚ) * cc.kernel_w * cc.out_channels))),
       if cc.bias then some (.const 0) else none⟩
  | .batchNorm2d _ => ⟨m, some (.const 1), some (.const 0)⟩
  | _ => ⟨m, none, none⟩

/-- The `_initialize_weights` loop over `self.modules()`. -/
def ScarletBase.initialized (s : ScarletBase) : List InitializedModule :=
  s.modules.map initializeModule

/-- The block produced by `InvertedResidual(8, 8, 3, 1, 1, False)`, written
out field by field (used to instantiate theorems at a concrete input). -/
def irCeilWitnessBlock : InvertedResidual :=
  { inp := 8, oup := 8, kernel_size := 3, stride := 1, expansion := 1
    is_use_se := false, use_res_connect := true, hidden_dim := 8
    conv1 := ⟨8, 8, 1, 1, 1, 0, 1, false⟩, bn1 := 8
    conv2 := ⟨8, 8, 3, 3, 1, 1, 8, false⟩, bn2 := 8
    mid_se := none
    conv3 := ⟨8, 8, 1, 1, 1, 0, 1, false⟩, bn3 := 8 }

/-- The block produced by `InvertedResidual(40, 40, 3, 1, 3, False)`,
written out field by field (used to instantiate theorems at a concrete
input). -/
def irResWitnessBlock : InvertedResidual :=
  { inp := 40, oup := 40, kernel_size := 3, stride := 1, expansion := 3
    is_use_se := false, use_res_connect := true, hidden_dim := 120
    conv1 := ⟨40, 120, 1, 1, 1, 0, 1, false⟩, bn1 := 120
    conv2 := ⟨120, 120, 3, 3, 1, 1, 120, false⟩, bn2 := 120
    mid_se := none
    conv3 := ⟨120, 40, 1, 1, 1, 0, 1, false⟩, bn3 := 40 }

/-- Length of the feature pyramid under the trivial denotation (used to
instantiate theorems at a concrete input). -/
def pyramidLenUnit (s : ScarletBase) : ℕ := (s.forward unitDen ()).length

/-- A small three-entry configuration exercising both an identity marker
and both strides (used to instantiate theorems at a concrete input). -/
def bookkeepingCfg : List MbCfg :=
  [.mb 3 32 3 1 false, .identity, .mb 6 40 5 2 true]

/-- The backbone produced by `ScarletBase([], 16, 1280)` (used to
instantiate theorems at a concrete input). -/
def emptyScarlet : ScarletBase :=
  { last_channel := 1280, stem_mod := stem 3 32 2
    separable_conv_mod := separable_conv 32 16, records := []
    conv_before_pooling_mod := conv_before_pooling 16 1280 }

/-- The initialized stem convolution (used to instantiate theorems at a
concrete input). -/
def stemConvInitialized : InitializedModule :=
  initializeModule (.conv2d (Conv2d 3 32 3 2 1 1 false))

/-! Helper lemmas. -/

/-- A name of the form `strided_block_{idx}` starts with `strided`. -/
theorem pyStartsWith_stridedBlockName (idx : ℕ) :
    pyStartsWith stridedChars (stridedBlockNameChars idx) = true := rfl

/-- A name of the form `block_{idx}` does not start with `strided`. -/
theorem pyStartsWith_blockName (idx : ℕ) :
    pyStartsWith stridedChars (blockNameChars idx) = false := rfl

/-- A name of the form `identity_{idx}` does not start with `strided`. -/
theorem pyStartsWith_identityName (idx : ℕ) :
    pyStartsWith stridedChars (identityNameChars idx) = false := rfl

/-- Field values of a successfully constructed `InvertedResidual`. -/
theorem InvertedResidual.init_fields {inp oup k s t : ℕ} {e : Bool}
    {b : InvertedResidual} (hb : InvertedResidual.init inp oup k s t e = some b) :
    b.inp = inp ∧ b.oup = oup ∧ b.kernel_size = k ∧ b.stride = s ∧
    b.expansion = t ∧ b.is_use_se = e ∧
    b.use_res_connect = (s == 1 && inp == oup) ∧ b.hidden_dim = inp * t ∧
    b.conv1 = ⟨inp, inp * t, 1, 1, 1, 0, 1, false⟩ ∧ b.bn1 = inp * t ∧
    b.conv2 = ⟨inp * t, inp * t, k, k, s, k / 2, inp * t, false⟩ ∧
    b.bn2 = inp * t ∧
    b.mid_se = (if e then some (SqueezeExcite.init (inp * t) 4) else none) ∧
    b.conv3 = ⟨inp * t, oup, 1, 1, 1, 0, 1, false⟩ ∧ b.bn3 = oup := by
  rw [InvertedResidual.init] at hb
  split at hb
  · cases hb
    exact ⟨rfl, rfl, rfl, rfl, rfl, rfl, rfl, rfl, rfl, rfl, rfl, rfl, rfl, rfl, rfl⟩
  · exact Option.noConfusion hb

/-- A successfully constructed `InvertedResidual` has stride 1 or 2. -/
theorem InvertedResidual.init_stride_mem {inp oup k s t : ℕ} {e : Bool}
    {b : InvertedResidual} (hb : InvertedResidual.init inp oup k s t e = some b) :
    s = 1 ∨ s = 2 := by
  rw [InvertedResidual.init] at hb
  split at hb
  · assumption
  · exact Option.noConfusion hb

/-- C10: for every input tensor `X`, the forward pass of an `Identity`
block — both as a bare module and as the passthrough block materialized
for an identity-marker configuration entry — returns `X` itself,
unchanged. -/
theorem identity_forward_returns_input :
    (∀ (T : Type) (x : T), Identity.forward x = x) ∧
    (∀ (T : Type) (d : Den T) (x : T), BlockMod.identity.run d x = x) :=
  ⟨fun _ _ => rfl, fun _ _ _ => rfl⟩

/-- C8: elementwise, `HSwish(x) = x * clamp(x+3, 0, 6) / 6` and
`HSigmoid(x) = clamp(x+3, 0, 6) / 6` for every `x` and either in-place
mode; in particular `HSwish(3) = 3`, `HSigmoid(-3) = 0`, `HSigmoid(3) = 1`;
and the in-place mode produces values identical to the out-of-place
mode. -/
theorem hswish_hsigmoid_formulas :
    (∀ (b : Bool) (x : ℚ), (HSwish.mk b).forward x = x * clamp (x + 3) 0 6 / 6) ∧
    (∀ (b : Bool) (x : ℚ), (HSigmoid.mk b).forward x = clamp (x + 3) 0 6 / 6) ∧
    (HSwish.mk true).forward 3 = 3 ∧
    (HSigmoid.mk true).forward (-3) = 0 ∧
    (HSigmoid.mk true).forward 3 = 1 ∧
    (∀ x : ℚ, (HSwish.mk true).forward x = (HSwish.mk false).forward x) ∧
    (∀ x : ℚ, (HSigmoid.mk true).forward x = (HSigmoid.mk false).forward x) := by
  refine ⟨fun _ _ => rfl, fun _ _ => rfl, ?_, ?_, ?_, fun _ => rfl, fun _ => rfl⟩
  · show (3 : ℚ) * min (max (3 + 3) 0) 6 / 6 = 3
    norm_num
  · show min (max ((-3 : ℚ) + 3) 0) 6 / 6 = 0
    norm_num
  · show min (max ((3 : ℚ) + 3) 0) 6 / 6 = 1
    norm_num

/-- C6: `InvertedResidual` construction succeeds exactly when the requested
stride is 1 or 2 (the `assert stride in [1, 2]` fails fast on every other
stride, and no other construction-time exception exists in the model). -/
theorem inverted_residual_stride_assert :
    ∀ (inp oup k s t : ℕ) (e : Bool),
      (InvertedResidual.init inp oup k s t e).isSome = true ↔ (s = 1 ∨ s = 2) := by
  intro inp oup k s t e
  rw [InvertedResidual.init]
  split <;> simp_all

/-- C7: for every positive `in_channel`, `SqueezeExcite` construction
succeeds (it is a total function of its arguments) with the squeeze
projection mapping `in_channel` to exactly `in_channel / reduction`
channels by integer floor division and the excite projection mapping back
to `in_channel`; when `reduction` does not divide `in_channel` the
bottleneck width is silently truncated (strictly smaller than
`in_channel / reduction` would restore) rather than an error being
raised. -/
theorem squeeze_excite_floor_division :
    ∀ in_channel reduction : ℕ, 0 < in_channel →
      (SqueezeExcite.init in_channel reduction).squeeze_conv.in_channels
          = in_channel ∧
      (SqueezeExcite.init in_channel reduction).squeeze_conv.out_channels
          = in_channel / reduction ∧
      (SqueezeExcite.init in_channel reduction).excite_conv.in_channels
          = in_channel / reduction ∧
      (SqueezeExcite.init in_channel reduction).excite_conv.out_channels
          = in_channel ∧
      (¬ reduction ∣ in_channel →
        (SqueezeExcite.init in_channel reduction).squeeze_conv.out_channels *
            reduction < in_channel) := by
  intro c r _
  refine ⟨rfl, rfl, rfl, rfl, fun hnd => ?_⟩
  exact Nat.lt_of_le_of_ne (Nat.div_mul_le_self c r)
    (fun heq => hnd ⟨c / r, by rw [Nat.mul_comm]; exact heq.symm⟩)

/-- Witness for C7 at `in_channel = 6`, `reduction = 4`: construction
yields a 6 → 1 squeeze and 1 → 6 excite projection, and `1 * 4 < 6` shows
the silent truncation. -/
theorem squeeze_excite_floor_division_witness :
    (SqueezeExcite.init 6 4).squeeze_conv.out_channels = 6 / 4 ∧
    (SqueezeExcite.init 6 4).squeeze_conv.out_channels * 4 < 6 :=
  ⟨(squeeze_excite_floor_division 6 4 (by decide)).2.1,
   (squeeze_excite_floor_division 6 4 (by decide)).2.2.2.2 (by decide)⟩

/-- C2: for each of the three presets, construction succeeds and the
forward pass on an input of shape `(1, 3, 224, 224)` succeeds (every
pyramid entry is a well-formed shape) with the final pyramid entry of
shape `(1, 1280, 7, 7)`. -/
theorem scarlet_presets_shape_224 :
    ((ScarletA.map fun s =>
        ((s.forward shapeDen (some ⟨1, 3, 224, 224⟩)).getLast?,
         (s.forward shapeDen (some ⟨1, 3, 224, 224⟩)).all Option.isSome)) =
      some (some (some ⟨1, 1280, 7, 7⟩), true)) ∧
    ((ScarletB.map fun s =>
        ((s.forward shapeDen (some ⟨1, 3, 224, 224⟩)).getLast?,
         (s.forward shapeDen (some ⟨1, 3, 224, 224⟩)).all Option.isSome)) =
      some (some (some ⟨1, 1280, 7, 7⟩), true)) ∧
    ((ScarletC.map fun s =>
        ((s.forward shapeDen (some ⟨1, 3, 224, 224⟩)).getLast?,
         (s.forward shapeDen (some ⟨1, 3, 224, 224⟩)).all Option.isSome)) =
      some (some (some ⟨1, 1280, 7, 7⟩), true)) := by
  refine ⟨?_, ?_, ?_⟩ <;> decide

/-- Counterexample to C4 as stated: the block
`InvertedResidual(8, 16, 3, 2, 1, False)` (odd kernel 3, stride 2, padding
`3 // 2 = 1`) maps an input of spatial size 5 to spatial size 3, whereas
`floor(5 / 2) = 2`; so the output spatial size is not
`floor(input / stride)` for odd inputs at stride 2. -/
theorem inverted_residual_floor_spatial_cex :
    ((InvertedResidual.init 8 16 3 2 1 false).bind fun b =>
        b.outShape ⟨1, 8, 5, 5⟩) = some ⟨1, 16, 3, 3⟩ ∧
    (5 : ℕ) / 2 = 2 ∧ (3 : ℕ) ≠ 5 / 2 := by decide

/-- A convolution whose hypotheses all hold produces the floor-division
output shape. -/
theorem conv_outShape_some (m : Conv2dCfg) (t : TShape)
    (h1 : t.c = m.in_channels) (h2 : m.in_channels % m.groups = 0)
    (h3 : m.out_channels % m.groups = 0) (h4 : 0 < m.groups)
    (h5 : 0 < m.stride) (h6 : m.kernel_h ≤ t.h + 2 * m.padding)
    (h7 : m.kernel_w ≤ t.w + 2 * m.padding) :
    m.outShape t = some ⟨t.n, m.out_channels,
      (t.h + 2 * m.padding - m.kernel_h) / m.stride + 1,
      (t.w + 2 * m.padding - m.kernel_w) / m.stride + 1⟩ := by
  rw [Conv2dCfg.outShape, if_pos ⟨h1, h2, h3, h4, h5, h6, h7⟩]

/-- A pointwise (1x1, stride 1, no padding, ungrouped) convolution
preserves every nonempty spatial extent. -/
theorem pointwise_outShape (ci co : ℕ) (bias : Bool) (t : TShape)
    (hc : t.c = ci) (hh : 0 < t.h) (hw : 0 < t.w) :
    Conv2dCfg.outShape ⟨ci, co, 1, 1, 1, 0, 1, bias⟩ t =
      some ⟨t.n, co, t.h, t.w⟩ := by
  rw [conv_outShape_some ⟨ci, co, 1, 1, 1, 0, 1, bias⟩ t hc
    (by show ci % 1 = 0; omega) (by show co % 1 = 0; omega)
    Nat.one_pos Nat.one_pos
    (by show 1 ≤ t.h + 2 * 0; omega) (by show 1 ≤ t.w + 2 * 0; omega)]
  have e1 : (t.h + 2 * 0 - 1) / 1 + 1 = t.h := by omega
  have e2 : (t.w + 2 * 0 - 1) / 1 + 1 = t.w := by omega
  rw [show (⟨ci, co, 1, 1, 1, 0, 1, bias⟩ : Conv2dCfg).out_channels = co from rfl]
  rw [show (⟨ci, co, 1, 1, 1, 0, 1, bias⟩ : Conv2dCfg).padding = 0 from rfl]
  rw [show (⟨ci, co, 1, 1, 1, 0, 1, bias⟩ : Conv2dCfg).kernel_h = 1 from rfl]
  rw [show (⟨ci, co, 1, 1, 1, 0, 1, bias⟩ : Conv2dCfg).kernel_w = 1 from rfl]
  rw [show (⟨ci, co, 1, 1, 1, 0, 1, bias⟩ : Conv2dCfg).stride = 1 from rfl]
  rw [e1, e2]

/-- A depthwise convolution with odd kernel, `same`-style padding
`k / 2` and positive stride maps spatial extent `n` to `(n - 1) / s + 1`
(that is, the ceiling of `n / s`). -/
theorem depthwise_outShape (hid k s : ℕ) (hk : k % 2 = 1) (hhid : 0 < hid)
    (hs : 0 < s) (t : TShape) (hc : t.c = hid) (hh : 0 < t.h) (hw : 0 < t.w) :
    Conv2dCfg.outShape ⟨hid, hid, k, k, s, k / 2, hid, false⟩ t =
      some ⟨t.n, hid, (t.h - 1) / s + 1, (t.w - 1) / s + 1⟩ := by
  rw [conv_outShape_some ⟨hid, hid, k, k, s, k / 2, hid, false⟩ t hc
    (by simp [Nat.mod_self]) (by simp [Nat.mod_self]) hhid hs
    (by show k ≤ t.h + 2 * (k / 2); omega) (by show k ≤ t.w + 2 * (k / 2); omega)]
  have e1 : t.h + 2 * (k / 2) - k = t.h - 1 := by omega
  have e2 : t.w + 2 * (k / 2) - k = t.w - 1 := by omega
  rw [show (⟨hid, hid, k, k, s, k / 2, hid, false⟩ : Conv2dCfg).padding = k / 2 from rfl]
  rw [show (⟨hid, hid, k, k, s, k / 2, hid, false⟩ : Conv2dCfg).kernel_h = k from rfl]
  rw [show (⟨hid, hid, k, k, s, k / 2, hid, false⟩ : Conv2dCfg).kernel_w = k from rfl]
  rw [show (⟨hid, hid, k, k, s, k / 2, hid, false⟩ : Conv2dCfg).stride = s from rfl]
  rw [e1, e2]

/-- A squeeze-excite module built on the channel count of its input
preserves the input shape. -/
theorem squeeze_excite_outShape (c r : ℕ) (t : TShape) (hc : t.c = c) :
    (SqueezeExcite.init c r).outShape t = some t := by
  subst hc
  rw [SqueezeExcite.init, SqueezeExcite.outShape]
  rw [show NNModule.outShape (.adaptiveAvgPool2d 1) t = some ⟨t.n, t.c, 1, 1⟩ from rfl]
  rw [Option.some_bind]
  rw [pointwise_outShape t.c (t.c / r) true ⟨t.n, t.c, 1, 1⟩ rfl Nat.one_pos Nat.one_pos]
  rw [Option.some_bind]
  rw [show NNModule.outShape (.reluM true) ⟨t.n, t.c / r, 1, 1⟩ =
    some ⟨t.n, t.c / r, 1, 1⟩ from rfl]
  rw [Option.some_bind]
  rw [pointwise_outShape (t.c / r) t.c true ⟨t.n, t.c / r, 1, 1⟩ rfl Nat.one_pos Nat.one_pos]
  rw [Option.some_bind]
  rw [show NNModule.outShape (.hsigmoidM true) ⟨t.n, t.c, 1, 1⟩ =
    some ⟨t.n, t.c, 1, 1⟩ from rfl]
  rw [Option.some_bind]
  rw [mulBroadcastShape]
  split
  · rfl
  · rw [if_pos rfl]

/-- C4 (amended): for every `InvertedResidual` block with odd kernel size,
a nonempty hidden width and any accepted stride, using padding
`kernel_size // 2`, the output spatial extents equal
`(input - 1) / stride + 1` — the CEILING of `input / stride` — for every
positive input height and width; this equals `floor(input / stride)` at
stride 1 and for even inputs at stride 2, but exceeds it by one for odd
inputs at stride 2. -/
theorem inverted_residual_ceil_spatial :
    ∀ (inp oup k s t : ℕ) (e : Bool) (b : InvertedResidual),
      InvertedResidual.init inp oup k s t e = some b →
      k % 2 = 1 → 0 < b.hidden_dim →
      ∀ n h w : ℕ, 0 < h → 0 < w →
        b.outShape ⟨n, inp, h, w⟩ =
          some ⟨n, oup, (h - 1) / s + 1, (w - 1) / s + 1⟩ := by
  intro inp oup k s t e b hb hk hhid n h w hh hw
  obtain ⟨hinp, houp, hks, hstr, hexp, hse, hres, hhd, hc1, hbn1, hc2, hbn2,
    hmse, hc3, hbn3⟩ := InvertedResidual.init_fields hb
  have hs : 0 < s := by
    rcases InvertedResidual.init_stride_mem hb with h1 | h1 <;> omega
  have hht : 0 < inp * t := by omega
  rw [InvertedResidual.outShape]
  rw [hc1, pointwise_outShape inp (inp * t) false ⟨n, inp, h, w⟩ rfl hh hw,
    Option.some_bind]
  rw [hbn1, if_pos rfl, Option.some_bind]
  rw [hc2, depthwise_outShape (inp * t) k s hk hht hs ⟨n, inp * t, h, w⟩ rfl hh hw,
    Option.some_bind]
  rw [hbn2, if_pos rfl, Option.some_bind]
  have hmid :
      (if b.is_use_se then
          b.mid_se.bind fun se =>
            se.outShape ⟨n, inp * t, (h - 1) / s + 1, (w - 1) / s + 1⟩
        else some ⟨n, inp * t, (h - 1) / s + 1, (w - 1) / s + 1⟩) =
        some ⟨n, inp * t, (h - 1) / s + 1, (w - 1) / s + 1⟩ := by
    cases e with
    | false => rw [hse]; simp
    | true =>
        rw [hse, hmse, if_pos rfl]
        simp only [if_true, Option.some_bind]
        exact squeeze_excite_outShape (inp * t) 4 _ rfl
  rw [hmid, Option.some_bind]
  rw [hc3, pointwise_outShape (inp * t) oup false
      ⟨n, inp * t, (h - 1) / s + 1, (w - 1) / s + 1⟩ rfl
      (Nat.succ_pos _) (Nat.succ_pos _), Option.some_bind]
  rw [hbn3, if_pos rfl, Option.some_bind]
  rw [hres]
  by_cases hrc : s = 1 ∧ inp = oup
  · obtain ⟨hs1, hio⟩ := hrc
    subst hs1
    subst hio
    rw [if_pos (by simp)]
    rw [addShape, if_pos (by
      rw [TShape.mk.injEq]; dsimp only; refine ⟨rfl, rfl, ?_, ?_⟩ <;> omega)]
    rw [Option.some.injEq, TShape.mk.injEq]
    refine ⟨rfl, rfl, ?_, ?_⟩ <;> omega
  · rw [if_neg (by
      intro hcontra
      rw [Bool.and_eq_true, beq_iff_eq, beq_iff_eq] at hcontra
      exact hrc hcontra)]

/-- Witness for C4 (amended) at `InvertedResidual(8, 8, 3, 1, 1, False)` on
an input of shape `(1, 8, 5, 5)`: kernel 3 is odd, the hidden width is 8,
and the output shape is `(1, 8, 5, 5)` since `(5 - 1) / 1 + 1 = 5`. -/
theorem inverted_residual_ceil_spatial_witness :
    irCeilWitnessBlock.outShape ⟨1, 8, 5, 5⟩ = some ⟨1, 8, 5, 5⟩ := by
  have hinit : InvertedResidual.init 8 8 3 1 1 false = some irCeilWitnessBlock := by
    decide
  exact (inverted_residual_ceil_spatial 8 8 3 1 1 false irCeilWitnessBlock hinit
    (by decide) (by decide) 1 5 5 (by decide) (by decide)).trans (by decide)

/-- C3: for every successfully constructed `InvertedResidual` block and
every abstract denotation of its submodules, the forward output equals the
input plus the expand/depthwise/project branch result exactly when
`stride == 1` and `inp == oup`, and equals the branch result alone (no
shortcut) in every other case. -/
theorem inverted_residual_shortcut :
    ∀ (inp oup k s t : ℕ) (e : Bool) (b : InvertedResidual),
      InvertedResidual.init inp oup k s t e = some b →
      ∀ (T : Type) [inst : Add T] (d : IRDen T) (x : T),
        (s = 1 ∧ inp = oup → b.forward d x = x + b.branch d x) ∧
        (¬ (s = 1 ∧ inp = oup) → b.forward d x = b.branch d x) := by
  intro inp oup k s t e b hb T inst d x
  have hres : b.use_res_connect = (s == 1 && inp == oup) :=
    (InvertedResidual.init_fields hb).2.2.2.2.2.2.1
  constructor
  · rintro ⟨hs1, hio⟩
    subst hs1
    subst hio
    have htrue : b.use_res_connect = true := by rw [hres]; simp
    rw [InvertedResidual.forward, InvertedResidual.branch, htrue]
    simp
  · intro hne
    have hfalse : b.use_res_connect = false := by
      rw [hres]
      rw [Bool.and_eq_false_iff]
      rcases Decidable.em (s = 1) with h1 | h1
      · right; rw [beq_eq_false_iff_ne]; exact fun hio => hne ⟨h1, hio⟩
      · left; rw [beq_eq_false_iff_ne]; exact h1
    rw [InvertedResidual.forward, InvertedResidual.branch, hfalse]
    simp

/-- Witness for C3 at `InvertedResidual(40, 40, 3, 1, 3, False)` under the
identity denotation over `ℚ` at input 5: the shortcut branch is taken and
the output equals `5 + branch(5)`. -/
theorem inverted_residual_shortcut_witness :
    irResWitnessBlock.forward idIRDen (5 : ℚ) =
      5 + irResWitnessBlock.branch idIRDen 5 :=
  (inverted_residual_shortcut 40 40 3 1 3 false irResWitnessBlock (by decide)
    ℚ idIRDen 5).1 ⟨rfl, rfl⟩

/-- Every record produced by the construction loop has a name starting
with `strided` exactly when its block is an inverted residual of stride
2. -/
theorem buildBlocks_name_strided :
    ∀ (cfg : List MbCfg) (idx ic : ℕ)
      (rs : List (List Char × BlockMod)) (fc : ℕ),
      buildBlocks idx cfg ic = some (rs, fc) →
      ∀ p ∈ rs, pyStartsWith stridedChars p.1 = isStridedBlock p.2 := by
  intro cfg
  induction cfg with
  | nil =>
      intro idx ic rs fc h p hp
      simp only [buildBlocks, Option.some.injEq, Prod.mk.injEq] at h
      rw [← h.1] at hp
      simp at hp
  | cons head rest ih =>
      intro idx ic rs fc h p hp
      cases head with
      | identity =>
          simp only [buildBlocks] at h
          cases hrec : buildBlocks (idx + 1) rest ic with
          | none => rw [hrec] at h; exact Option.noConfusion h
          | some pr =>
              obtain ⟨rs2, fc2⟩ := pr
              rw [hrec] at h
              simp only [Option.some.injEq, Prod.mk.injEq] at h
              rw [← h.1] at hp
              rcases List.mem_cons.mp hp with hp2 | hp2
              · subst hp2
                exact pyStartsWith_identityName idx
              · exact ih (idx + 1) ic rs2 fc2 hrec p hp2
      | mb t c k st e =>
          simp only [buildBlocks] at h
          cases hinit : InvertedResidual.init ic c k st t e with
          | none => rw [hinit] at h; exact Option.noConfusion h
          | some b =>
              rw [hinit] at h
              cases hrec : buildBlocks (idx + 1) rest c with
              | none => rw [hrec] at h; exact Option.noConfusion h
              | some pr =>
                  obtain ⟨rs2, fc2⟩ := pr
                  rw [hrec] at h
                  simp only [Option.some.injEq, Prod.mk.injEq] at h
                  rw [← h.1] at hp
                  rcases List.mem_cons.mp hp with hp2 | hp2
                  · subst hp2
                    have hstr : b.stride = st :=
                      (InvertedResidual.init_fields hinit).2.2.2.1
                    rcases InvertedResidual.init_stride_mem hinit with hs1 | hs2
                    · subst hs1
                      rw [if_pos rfl]
                      rw [pyStartsWith_blockName]
                      simp [isStridedBlock, hstr]
                    · subst hs2
                      rw [if_neg (by omega)]
                      rw [pyStartsWith_stridedBlockName]
                      simp [isStridedBlock, hstr]
                  · exact ih (idx + 1) c rs2 fc2 hrec p hp2

/-- The records produced by the construction loop contain exactly as many
stride-2 inverted residual blocks as the configuration has stride-2
entries. -/
theorem buildBlocks_countStride2 :
    ∀ (cfg : List MbCfg) (idx ic : ℕ)
      (rs : List (List Char × BlockMod)) (fc : ℕ),
      buildBlocks idx cfg ic = some (rs, fc) →
      rs.countP (fun p => isStridedBlock p.2) = countStride2 cfg := by
  intro cfg
  induction cfg with
  | nil =>
      intro idx ic rs fc h
      simp only [buildBlocks, Option.some.injEq, Prod.mk.injEq] at h
      rw [← h.1]
      rfl
  | cons head rest ih =>
      intro idx ic rs fc h
      cases head with
      | identity =>
          simp only [buildBlocks] at h
          cases hrec : buildBlocks (idx + 1) rest ic with
          | none => rw [hrec] at h; exact Option.noConfusion h
          | some pr =>
              obtain ⟨rs2, fc2⟩ := pr
              rw [hrec] at h
              simp only [Option.some.injEq, Prod.mk.injEq] at h
              rw [← h.1]
              rw [List.countP_cons]
              rw [ih (idx + 1) ic rs2 fc2 hrec]
              simp [isStridedBlock, countStride2, List.countP_cons]
      | mb t c k st e =>
          simp only [buildBlocks] at h
          cases hinit : InvertedResidual.init ic c k st t e with
          | none => rw [hinit] at h; exact Option.noConfusion h
          | some b =>
              rw [hinit] at h
              cases hrec : buildBlocks (idx + 1) rest c with
              | none => rw [hrec] at h; exact Option.noConfusion h
              | some pr =>
                  obtain ⟨rs2, fc2⟩ := pr
                  rw [hrec] at h
                  simp only [Option.some.injEq, Prod.mk.injEq] at h
                  rw [← h.1]
                  rw [List.countP_cons]
                  rw [ih (idx + 1) c rs2 fc2 hrec]
                  have hstr : b.stride = st :=
                    (InvertedResidual.init_fields hinit).2.2.2.1
                  simp [isStridedBlock, hstr, countStride2, List.countP_cons]

/-- When every record name starts with `strided` exactly on stride-2
blocks, the name-dispatched block loop agrees with the stride-dispatched
one. -/
theorem forwardBlocks_eq_specForwardBlocks {T : Type} (d : Den T) :
    ∀ (rs : List (List Char × BlockMod)),
      (∀ p ∈ rs, pyStartsWith stridedChars p.1 = isStridedBlock p.2) →
      ∀ x, forwardBlocks d rs x = specForwardBlocks d rs x := by
  intro rs
  induction rs with
  | nil => intro _ _; rfl
  | cons a rest ih =>
      intro hnames x
      obtain ⟨name, m⟩ := a
      have hhead := hnames (name, m) (List.mem_cons_self _ _)
      simp only [forwardBlocks, specForwardBlocks]
      rw [hhead]
      rw [ih (fun p hp => hnames p (List.mem_cons_of_mem _ hp)) (m.run d x)]

/-- The stride-dispatched block loop appends one skip per stride-2
block. -/
theorem specForwardBlocks_skips_length {T : Type} (d : Den T) :
    ∀ (rs : List (List Char × BlockMod)) (x : T),
      ((specForwardBlocks d rs x).1).length =
        rs.countP (fun p => isStridedBlock p.2) := by
  intro rs
  induction rs with
  | nil => intro _; rfl
  | cons a rest ih =>
      intro x
      obtain ⟨name, m⟩ := a
      simp only [specForwardBlocks, List.countP_cons]
      cases hm : isStridedBlock m <;>
        simp [hm, ih (m.run d x), Nat.add_comm]

/-- C1: for every validly constructed `ScarletBase` backbone, every
denotation and every input, the forward pass equals the spec-side pyramid
(the input of each block whose configured stride is 2, captured
immediately before that block runs, in construction order, followed by the
`conv_before_pooling` output as the single final entry), and its length is
the number of stride-2 configuration entries plus one. -/
theorem scarlet_forward_pyramid :
    ∀ (cfg : List MbCfg) (ic lc : ℕ) (s : ScarletBase),
      ScarletBase.init cfg ic lc = some s →
      ∀ (T : Type) (d : Den T) (x : T),
        s.forward d x = s.specForward d x ∧
        (s.forward d x).length = countStride2 cfg + 1 := by
  intro cfg ic lc s hs T d x
  rw [ScarletBase.init] at hs
  cases hb : buildBlocks 0 cfg ic with
  | none => rw [hb] at hs; exact Option.noConfusion hs
  | some pr =>
      obtain ⟨rs, fc⟩ := pr
      rw [hb] at hs
      simp only [Option.some.injEq] at hs
      subst hs
      have hnames := buildBlocks_name_strided cfg 0 ic rs fc hb
      constructor
      · simp only [ScarletBase.forward, ScarletBase.specForward]
        rw [forwardBlocks_eq_specForwardBlocks d rs hnames]
      · simp only [ScarletBase.forward]
        rw [forwardBlocks_eq_specForwardBlocks d rs hnames]
        rw [List.length_append]
        rw [specForwardBlocks_skips_length]
        rw [buildBlocks_countStride2 cfg 0 ic rs fc hb]
        rfl

/-- Witness for C1 at the `ScarletA` preset under the trivial denotation:
the pyramid has `countStride2 ScarletA_config + 1` entries (that is, 5). -/
theorem scarlet_forward_pyramid_witness :
    (ScarletA.map pyramidLenUnit = some (countStride2 ScarletA_config + 1)) ∧
    countStride2 ScarletA_config + 1 = 5 := by
  constructor
  · cases hA : ScarletA with
    | none => exact absurd hA (by decide)
    | some s =>
        rw [Option.map_some']
        exact congrArg some
          (scarlet_forward_pyramid ScarletA_config 16 1280 s hA Unit unitDen ()).2
  · decide

/-- Positional description of the construction loop: the records list is
as long as the configuration, the final running channel is `chanAfter`,
and each record matches its configuration entry — identity entries give
identity blocks and leave the running channel unchanged, five-field
entries give inverted residual blocks wired from the running channel to
their out-channel, which becomes the next running channel. -/
theorem buildBlocks_records :
    ∀ (cfg : List MbCfg) (idx ic : ℕ)
      (rs : List (List Char × BlockMod)) (fc : ℕ),
      buildBlocks idx cfg ic = some (rs, fc) →
      rs.length = cfg.length ∧ fc = chanAfter cfg ic ∧
      ∀ (i : ℕ) (hi : i < cfg.length) (hr : i < rs.length),
        (cfg.get ⟨i, hi⟩ = .identity →
          (rs.get ⟨i, hr⟩).2 = .identity ∧
          chanAfter (cfg.take (i + 1)) ic = chanAfter (cfg.take i) ic) ∧
        (∀ t c k st e, cfg.get ⟨i, hi⟩ = .mb t c k st e →
          ∃ b, (rs.get ⟨i, hr⟩).2 = .inv b ∧
            b.inp = chanAfter (cfg.take i) ic ∧ b.oup = c ∧
            b.kernel_size = k ∧ b.stride = st ∧ b.expansion = t ∧
            b.is_use_se = e ∧ chanAfter (cfg.take (i + 1)) ic = c) := by
  intro cfg
  induction cfg with
  | nil =>
      intro idx ic rs fc h
      simp only [buildBlocks, Option.some.injEq, Prod.mk.injEq] at h
      refine ⟨by rw [← h.1]; rfl, by rw [← h.2]; rfl, ?_⟩
      intro i hi
      exact absurd hi (Nat.not_lt_zero i)
  | cons head rest ih =>
      intro idx ic rs fc h
      cases head with
      | identity =>
          simp only [buildBlocks] at h
          cases hrec : buildBlocks (idx + 1) rest ic with
          | none => rw [hrec] at h; exact Option.noConfusion h
          | some pr =>
              obtain ⟨rs2, fc2⟩ := pr
              rw [hrec] at h
              simp only [Option.some.injEq, Prod.mk.injEq] at h
              obtain ⟨h1, h2⟩ := h
              subst h1
              subst h2
              obtain ⟨ihl, ihfc, ihpos⟩ := ih (idx + 1) ic rs2 fc2 hrec
              refine ⟨by simp [ihl], ihfc, ?_⟩
              intro i hi hr
              cases i with
              | zero =>
                  constructor
                  · intro _
                    exact ⟨rfl, rfl⟩
                  · intro t c k st e hget
                    exact MbCfg.noConfusion hget
              | succ j =>
                  have hj : j < rest.length := by simpa using hi
                  have hjr : j < rs2.length := by simpa using hr
                  exact ihpos j hj hjr
      | mb t0 c0 k0 st0 e0 =>
          simp only [buildBlocks] at h
          cases hinit : InvertedResidual.init ic c0 k0 st0 t0 e0 with
          | none => rw [hinit] at h; exact Option.noConfusion h
          | some b =>
              rw [hinit] at h
              cases hrec : buildBlocks (idx + 1) rest c0 with
              | none => rw [hrec] at h; exact Option.noConfusion h
              | some pr =>
                  obtain ⟨rs2, fc2⟩ := pr
                  rw [hrec] at h
                  simp only [Option.some.injEq, Prod.mk.injEq] at h
                  obtain ⟨h1, h2⟩ := h
                  subst h1
                  subst h2
                  obtain ⟨ihl, ihfc, ihpos⟩ := ih (idx + 1) c0 rs2 fc2 hrec
                  refine ⟨by simp [ihl], ihfc, ?_⟩
                  intro i hi hr
                  cases i with
                  | zero =>
                      constructor
                      · intro hget
                        exact MbCfg.noConfusion hget
                      · intro t c k st e hget
                        obtain ⟨het, hec, hek, hes, hee⟩ := MbCfg.mb.inj hget
                        subst het
                        subst hec
                        subst hek
                        subst hes
                        subst hee
                        obtain ⟨hbinp, hboup, hbk, hbs, hbt, hbe, _⟩ :=
                          InvertedResidual.init_fields hinit
                        exact ⟨b, rfl, hbinp, hboup, hbk, hbs, hbt, hbe, rfl⟩
                  | succ j =>
                      have hj : j < rest.length := by simpa using hi
                      have hjr : j < rs2.length := by simpa using hr
                      exact ihpos j hj hjr

/-- C5: during `ScarletBase` construction the running `input_channel`
evolves as specified — identity markers leave it unchanged, a five-field
entry creates an `InvertedResidual` from the current running channel to
its out-channel and updates the running channel to that out-channel, and
`conv_before_pooling` finally maps the resulting running channel to
`last_channel`. -/
theorem scarlet_channel_bookkeeping :
    ∀ (cfg : List MbCfg) (ic lc : ℕ) (s : ScarletBase),
      ScarletBase.init cfg ic lc = some s →
      s.records.length = cfg.length ∧
      (∀ (i : ℕ) (hi : i < cfg.length) (hr : i < s.records.length),
        (cfg.get ⟨i, hi⟩ = .identity →
          (s.records.get ⟨i, hr⟩).2 = .identity ∧
          chanAfter (cfg.take (i + 1)) ic = chanAfter (cfg.take i) ic) ∧
        (∀ t c k st e, cfg.get ⟨i, hi⟩ = .mb t c k st e →
          ∃ b, (s.records.get ⟨i, hr⟩).2 = .inv b ∧
            b.inp = chanAfter (cfg.take i) ic ∧ b.oup = c ∧
            b.kernel_size = k ∧ b.stride = st ∧ b.expansion = t ∧
            b.is_use_se = e ∧ chanAfter (cfg.take (i + 1)) ic = c)) ∧
      s.conv_before_pooling_mod = conv_before_pooling (chanAfter cfg ic) lc := by
  intro cfg ic lc s hs
  rw [ScarletBase.init] at hs
  cases hb : buildBlocks 0 cfg ic with
  | none => rw [hb] at hs; exact Option.noConfusion hs
  | some pr =>
      obtain ⟨rs, fc⟩ := pr
      rw [hb] at hs
      simp only [Option.some.injEq] at hs
      subst hs
      obtain ⟨hl, hfc, hpos⟩ := buildBlocks_records cfg 0 ic rs fc hb
      refine ⟨hl, hpos, ?_⟩
      show conv_before_pooling fc lc = conv_before_pooling (chanAfter cfg ic) lc
      rw [hfc]

/-- Witness for C5 at a three-entry configuration (non-identity, identity,
strided non-identity) with input channel 16: the final projection is built
from the running channel `chanAfter bookkeepingCfg 16` (that is, 40) to
1280. -/
theorem scarlet_channel_bookkeeping_witness :
    (ScarletBase.init bookkeepingCfg 16 1280).map
        ScarletBase.conv_before_pooling_mod =
      some (conv_before_pooling (chanAfter bookkeepingCfg 16) 1280) ∧
    chanAfter bookkeepingCfg 16 = 40 := by
  constructor
  · cases hB : ScarletBase.init bookkeepingCfg 16 1280 with
    | none => exact absurd hB (by decide)
    | some s =>
        rw [Option.map_some']
        exact congrArg some
          (scarlet_channel_bookkeeping bookkeepingCfg 16 1280 s hB).2.2
  · decide

/-- C9: after `ScarletBase` construction, `_initialize_weights` gives
every convolution module a zero-mean Gaussian weight whose variance is
`2 / (kernel_h * kernel_w * out_channels)` (i.e. standard deviation
`sqrt(2 / n)`), zeroes every convolution bias that exists, and sets every
batch-normalization scale to 1 and shift to 0. -/
theorem scarlet_weight_initialization :
    ∀ (cfg : List MbCfg) (ic lc : ℕ) (s : ScarletBase),
      ScarletBase.init cfg ic lc = some s →
      ∀ im ∈ s.initialized,
        (∀ cc, im.module = .conv2d cc →
          im.weight_init = some (.gaussian 0
            (2 / ((cc.kernel_h : ℚ) * cc.kernel_w * cc.out_channels))) ∧
          (cc.bias = true → im.bias_init = some (.const 0)) ∧
          (cc.bias = false → im.bias_init = none)) ∧
        (∀ f, im.module = .batchNorm2d f →
          im.weight_init = some (.const 1) ∧
          im.bias_init = some (.const 0)) := by
  intro cfg ic lc s _ im him
  obtain ⟨m, _, heq⟩ := List.mem_map.mp him
  subst heq
  cases m with
  | conv2d cc =>
      constructor
      · intro cc2 hcc
        have hcceq : cc = cc2 := by
          simpa [initializeModule] using hcc
        subst hcceq
        refine ⟨rfl, fun hb => ?_, fun hb => ?_⟩
        · simp [initializeModule, hb]
        · simp [initializeModule, hb]
      · intro f hf
        exact absurd hf (by simp [initializeModule])
  | batchNorm2d f =>
      exact ⟨fun cc hcc => absurd hcc (by simp [initializeModule]),
             fun f2 _ => ⟨rfl, rfl⟩⟩
  | mish =>
      exact ⟨fun cc hcc => absurd hcc (by simp [initializeModule]),
             fun f hf => absurd hf (by simp [initializeModule])⟩
  | hswishM b =>
      exact ⟨fun cc hcc => absurd hcc (by simp [initializeModule]),
             fun f hf => absurd hf (by simp [initializeModule])⟩
  | hsigmoidM b =>
      exact ⟨fun cc hcc => absurd hcc (by simp [initializeModule]),
             fun f hf => absurd hf (by simp [initializeModule])⟩
  | reluM b =>
      exact ⟨fun cc hcc => absurd hcc (by simp [initializeModule]),
             fun f hf => absurd hf (by simp [initializeModule])⟩
  | adaptiveAvgPool2d o =>
      exact ⟨fun cc hcc => absurd hcc (by simp [initializeModule]),
             fun f hf => absurd hf (by simp [initializeModule])⟩
  | identityM =>
      exact ⟨fun cc hcc => absurd hcc (by simp [initializeModule]),
             fun f hf => absurd hf (by simp [initializeModule])⟩

/-- Witness for C9 at the stem convolution of `ScarletBase([], 16, 1280)`:
its weight initialization is a zero-mean Gaussian with variance
`2 / (3 * 3 * 32) = 1 / 144`, and it has no bias to initialize. -/
theorem scarlet_weight_initialization_witness :
    stemConvInitialized.weight_init = some (.gaussian 0 (1 / 144)) ∧
    stemConvInitialized.bias_init = none := by
  have hS : ScarletBase.init [] 16 1280 = some emptyScarlet := by decide
  have hmem : stemConvInitialized ∈ emptyScarlet.initialized :=
    List.mem_cons_self _ _
  have h := (scarlet_weight_initialization [] 16 1280 emptyScarlet hS
    stemConvInitialized hmem).1 (Conv2d 3 32 3 2 1 1 false) rfl
  refine ⟨h.1.trans ?_, h.2.2 rfl⟩
  norm_num [Conv2d]

end Scarlet
